import Mathlib

/-!
Shallow embedding of the FFM numerical core of src/lib/ffm.cpp: the model
representation, the dual-mode interaction kernel wTx, the training loop,
shrink, inference (ffm_predict) and text persistence (ffm_save_model and
ffm_load_model).  Machine floats are modelled exactly: the kernel and the
model are generic over a commutative ring (instantiated at the rationals
for concrete evaluation and at the reals where square roots, exponentials
and the logistic link appear).  The SSE intrinsics of the source process
coordinates in groups of four lanes; over exact arithmetic that grouping
is plain summation, so the embedding uses per-coordinate sums.  The
approximate reciprocal square root mm rsqrt ps is abstracted as an
explicit function parameter rs; the idealised interpretation used in the
theorems about update mode is fun x => (Real.sqrt x)⁻¹.
-/

/-- One sparse feature occurrence, struct ffm_node of the source: field f,
feature index j, value v.  Indices are modelled as naturals; the source
skips any node whose index or field is at or above the model bounds, which
is the only way they are consumed. -/
structure ffm_node (α : Type) where
  f : ℕ
  j : ℕ
  v : α
  deriving Repr, DecidableEq

/-- Struct ffm_model of the source: bounds n and m, embedding width k, the
normalization flag, and the flat weight buffer W, modelled as a total map
from flat offsets to values (the source allocates n*m*k*2 floats during
training and n*m*k after shrink or load). -/
structure ffm_model (α : Type) where
  n : ℕ
  m : ℕ
  k : ℕ
  normalization : Bool
  W : ℕ → α

/-- Struct ffm_parameter of the source (nr_threads is a runtime hint with no
effect on the arithmetic; random is declared and, per the spec, never read
by the training loop). -/
structure ffm_parameter where
  eta : ℝ
  lambda : ℝ
  nr_iters : ℕ
  k : ℕ
  nr_threads : ℕ
  quiet : Bool
  normalization : Bool
  random : Bool

/-- Source ffm_get_default_param, lines 477 to 491. -/
noncomputable def ffm_get_default_param : ffm_parameter :=
  { eta := 0.1, lambda := 0, nr_iters := 15, k := 4, nr_threads := 1,
    quiet := false, normalization := false, random := true }

/-- Dot product of k consecutive coordinates at flat offsets o1 and o2:
the inner d-loop of wTx in score mode and of ffm_predict, with the four
SSE lanes of the source summed exactly. -/
def dotRange {α : Type} [CommRing α] (W : ℕ → α) (o1 o2 k : ℕ) : α :=
  ∑ d ∈ Finset.range k, W (o1 + d) * W (o2 + d)

/-- Contribution of the inner-loop node N2 paired with the fixed outer node
N1 (source lines 72 to 131, score path): zero when N2 is out of bounds or
shares the field of N1, and otherwise the dot product of the embedding of
(j1, f2) with the embedding of (j2, f1), at stride align0, times
v = 2 * v1 * v2 * r.  kdim is the number of summed coordinates and align0
the per-(index, field) stride: wTx uses kdim = k, align0 = 2k, while
ffm_predict uses kdim = k, align0 = k. -/
def innerTerm {α : Type} [CommRing α] (n m kdim align0 : ℕ) (W : ℕ → α) (r : α)
    (N1 N2 : ffm_node α) : α :=
  if N2.j < n ∧ N2.f < m ∧ N1.f ≠ N2.f then
    dotRange W (N1.j * (m * align0) + N2.f * align0)
      (N2.j * (m * align0) + N1.f * align0) kdim * (2 * N1.v * N2.v * r)
  else 0

/-- The doubly nested pair loop of wTx in score mode (source lines 64 to 133
with do_update false): for each outer node N1 within bounds, sum the
contributions of every later node, and accumulate over the row. -/
def scoreLoop {α : Type} [CommRing α] (n m kdim align0 : ℕ) (W : ℕ → α) (r : α) :
    List (ffm_node α) → α
  | [] => 0
  | N1 :: rest =>
      (if N1.j < n ∧ N1.f < m then ((rest.map (innerTerm n m kdim align0 W r N1)).sum)
       else 0)
      + scoreLoop n m kdim align0 W r rest

/-- Effect on the weight buffer of one valid pair in update mode (source
lines 85 to 119): with o1 and o2 the flat offsets of the embeddings of
(j1, f2) and (j2, f1) at stride 2k, and kv = kappa * 2 * v1 * v2 * r, each
live coordinate d below k of the two blocks first accumulates the squared
gradient into the slot at offset k above it and is then moved by
eta * rs (updated accumulator) * gradient, where rs stands for the
mm rsqrt ps reciprocal square root.  Gradients read the pre-store loads,
exactly as the SSE code loads all four registers before storing.  For a
valid cross-field pair the two blocks are disjoint, so the branch order is
immaterial there. -/
def updatePairW {α : Type} [CommRing α] (m k : ℕ) (r kappa eta lambda : α)
    (rs : α → α) (N1 N2 : ffm_node α) (W : ℕ → α) : ℕ → α :=
  let o1 := N1.j * (m * (2 * k)) + N2.f * (2 * k)
  let o2 := N2.j * (m * (2 * k)) + N1.f * (2 * k)
  let kv := kappa * (2 * N1.v * N2.v * r)
  fun i =>
    if o1 ≤ i ∧ i < o1 + k then
      let d := i - o1
      let g1 := lambda * W (o1 + d) + kv * W (o2 + d)
      W (o1 + d) - eta * (rs (W (o1 + k + d) + g1 * g1) * g1)
    else if o1 + k ≤ i ∧ i < o1 + 2 * k then
      let d := i - (o1 + k)
      let g1 := lambda * W (o1 + d) + kv * W (o2 + d)
      W (o1 + k + d) + g1 * g1
    else if o2 ≤ i ∧ i < o2 + k then
      let d := i - o2
      let g2 := lambda * W (o2 + d) + kv * W (o1 + d)
      W (o2 + d) - eta * (rs (W (o2 + k + d) + g2 * g2) * g2)
    else if o2 + k ≤ i ∧ i < o2 + 2 * k then
      let d := i - (o2 + k)
      let g2 := lambda * W (o2 + d) + kv * W (o1 + d)
      W (o2 + k + d) + g2 * g2
    else W i

/-- Inner loop of wTx in update mode for a fixed outer node N1: later nodes
are processed in row order, each valid pair mutating the buffer in place
(source lines 72 to 132 with do_update true). -/
def updateInner {α : Type} [CommRing α] (n m k : ℕ) (r kappa eta lambda : α)
    (rs : α → α) (N1 : ffm_node α) (rest : List (ffm_node α)) (W : ℕ → α) : ℕ → α :=
  rest.foldl
    (fun Wc N2 =>
      if N2.j < n ∧ N2.f < m ∧ N1.f ≠ N2.f then
        updatePairW m k r kappa eta lambda rs N1 N2 Wc
      else Wc)
    W

/-- Outer loop of wTx in update mode: outer nodes out of bounds are skipped
with their whole inner loop (source lines 64 to 70). -/
def updateLoop {α : Type} [CommRing α] (n m k : ℕ) (r kappa eta lambda : α)
    (rs : α → α) : List (ffm_node α) → (ℕ → α) → (ℕ → α)
  | [], W => W
  | N1 :: rest, W =>
      updateLoop n m k r kappa eta lambda rs rest
        (if N1.j < n ∧ N1.f < m then updateInner n m k r kappa eta lambda rs N1 rest W
         else W)

/-- Source wTx, lines 45 to 144: the dual-mode kernel.  In update mode it
returns 0 and the model with the mutated buffer; in score mode it returns
the accumulated total and the model untouched.  The row is the node span
from begin to end, which in the source excludes the sentinel node. -/
def wTx {α : Type} [CommRing α] (nodes : List (ffm_node α)) (r : α)
    (model : ffm_model α) (kappa eta lambda : α) (rs : α → α)
    (do_update : Bool) : α × ffm_model α :=
  if do_update then
    (0, { model with
          W := updateLoop model.n model.m model.k r kappa eta lambda rs nodes model.W })
  else
    (scoreLoop model.n model.m model.k (2 * model.k) model.W r nodes, model)

/-- Sum of squared values over a node span: the normalization accumulator of
ffm_predict, lines 524 to 526, which runs over every node of the row
including any out-of-bounds ones. -/
def sumSq {α : Type} [CommRing α] (nodes : List (ffm_node α)) : α :=
  (nodes.map (fun N => N.v * N.v)).sum

/-- Row scale of ffm_predict, lines 521 to 528: one exactly when the flag is
off, and the reciprocal square root of the sum of squared values when on. -/
noncomputable def predictScale (model : ffm_model ℝ) (nodes : List (ffm_node ℝ)) : ℝ :=
  if model.normalization then 1 / Real.sqrt (sumSq nodes) else 1

/-- Raw decision value t of ffm_predict, lines 530 to 558: the pair loop at
stride k (the shrunk layout, align0 = k) with the recomputed row scale. -/
noncomputable def predictScore (model : ffm_model ℝ) (nodes : List (ffm_node ℝ)) : ℝ :=
  scoreLoop model.n model.m model.k model.k model.W (predictScale model nodes) nodes

/-- Source ffm_predict, lines 519 to 561: the logistic link applied to the
raw decision value. -/
noncomputable def ffm_predict (nodes : List (ffm_node ℝ)) (model : ffm_model ℝ) : ℝ :=
  1 / (1 + Real.exp (-(predictScore model nodes)))

/-- One element copy of shrink_model: slot d of block b moves from the
trained layout at stride 2k to the compacted layout at stride kNew. -/
def copyBlockStep {α : Type} (kOld kNew b : ℕ) (W : ℕ → α) (d : ℕ) : ℕ → α :=
  Function.update W (b * kNew + d) (W (b * (2 * kOld) + d))

/-- Per block copy of shrink_model, source line 206: std copy of kNew values
from offset b * kOld * 2 to offset b * kNew, element by element in
increasing order, each read seeing every earlier write. -/
def copyBlock {α : Type} (kOld kNew b : ℕ) (W : ℕ → α) : ℕ → α :=
  (List.range kNew).foldl (copyBlockStep kOld kNew b) W

/-- Abstraction of copyBlockStep over arbitrary source and destination base
offsets, used by the proofs about the in-place copy. -/
def copyStep {α : Type} (src dst : ℕ) (W : ℕ → α) (d : ℕ) : ℕ → α :=
  Function.update W (dst + d) (W (src + d))

/-- Double loop of shrink_model, lines 200 to 209: blocks are visited in
row-major (j, f) order, block index j * m + f. -/
def shrinkW {α : Type} (n m kOld kNew : ℕ) (W : ℕ → α) : ℕ → α :=
  (List.range n).foldl
    (fun Wc j => (List.range m).foldl (fun Wd f => copyBlock kOld kNew (j * m + f) Wd) Wc)
    W

/-- Source shrink_model, lines 198 to 211: compact the buffer in place and
record the new width. -/
def shrink_model {α : Type} (model : ffm_model α) (kNew : ℕ) : ffm_model α :=
  { model with k := kNew, W := shrinkW model.n model.m model.k kNew model.W }

/-- Aligned embedding width of init_model, line 160: ceil (k / 4) * 4 over
the naturals (kALIGN is 4 floats for 16-byte alignment). -/
def align_k (k : ℕ) : ℕ := (k + 3) / 4 * 4

/-- Weight buffer laid down by init_model, lines 179 to 193: per block of
width 2 * aligned k, the first kReq slots hold coef times the next drand48
draw (the draw stream is the function rand, consumed in write order), the
padding slots up to the aligned width hold zero, and the accumulator half
holds one.  Offsets at or beyond the allocation are never read by the
source and are modelled as zero. -/
noncomputable def init_W (n m kReq : ℕ) (rand : ℕ → ℝ) : ℕ → ℝ :=
  let kAl := align_k kReq
  let coef : ℝ := 0.5 / Real.sqrt kReq
  fun i =>
    let b := i / (2 * kAl)
    let d := i % (2 * kAl)
    if b < n * m then
      if d < kReq then coef * rand (b * kReq + d)
      else if d < kAl then 0
      else 1
    else 0

/-- Source init_model, lines 158 to 196. -/
noncomputable def init_model (n m : ℕ) (param : ffm_parameter) (rand : ℕ → ℝ) :
    ffm_model ℝ :=
  { n := n, m := m, k := align_k param.k, normalization := param.normalization,
    W := init_W n m param.k rand }

/-- Row scale used by the training loop: source lines 309 and 379 set
r = 1.0 unconditionally before every score-mode call, every update-mode
call and every validation scoring call, for every parameter setting and
every row. -/
def train_row_scale (param : ffm_parameter) (nodes : List (ffm_node ℝ)) : ℝ := 1

/-- Per-row step of the training loop, source lines 305 to 325: score the
row, form kappa as the derivative of the logistic loss at y * t, and apply
the update-mode kernel with eta and lambda from the parameters.  The label
is mapped to 1 when positive and -1 otherwise (line 280). -/
noncomputable def train_step (param : ffm_parameter) (rs : ℝ → ℝ)
    (model : ffm_model ℝ) (row : List (ffm_node ℝ) × ℤ) : ffm_model ℝ :=
  let nodes := row.1
  let y : ℝ := if 0 < row.2 then 1 else -1
  let r := train_row_scale param nodes
  let t := (wTx nodes r model 0 0 0 rs false).1
  let expnyt := Real.exp (-(y * t))
  let kappa := -y * expnyt / (1 + expnyt)
  (wTx nodes r model kappa param.eta param.lambda rs true).2

/-- One epoch, lines 256 to 326: the rows are visited in dataset order. -/
noncomputable def train_epoch (param : ffm_parameter) (rs : ℝ → ℝ)
    (rows : List (List (ffm_node ℝ) × ℤ)) (model : ffm_model ℝ) : ffm_model ℝ :=
  rows.foldl (train_step param rs) model

/-- Logistic loss of one validation row, source lines 345 to 385: scored in
score mode only, with the same unconditional unit row scale. -/
noncomputable def validation_row_loss (param : ffm_parameter) (rs : ℝ → ℝ)
    (model : ffm_model ℝ) (row : List (ffm_node ℝ) × ℤ) : ℝ :=
  let y : ℝ := if 0 < row.2 then 1 else -1
  let t := (wTx row.1 (train_row_scale param row.1) model 0 0 0 rs false).1
  Real.log (1 + Real.exp (-(y * t)))

/-- Source train, lines 213 to 400: initialise the model, run nr_iters
epochs over the rows in dataset order, then shrink back to the requested
width.  The random draws of init_model are the stream rand and the
reciprocal square root routine is rs. -/
noncomputable def train (n m : ℕ) (rows : List (List (ffm_node ℝ) × ℤ))
    (param : ffm_parameter) (rs : ℝ → ℝ) (rand : ℕ → ℝ) : ffm_model ℝ :=
  shrink_model ((train_epoch param rs rows)^[param.nr_iters] (init_model n m param rand))
    param.k

/-- The data ffm_save_model writes, lines 404 to 428: the four header values
followed by the first n * m * k buffer entries in write order (the pointer
walks the buffer sequentially, which for a shrunk model is row-major
(index, field) block order, k values per block). -/
structure saved_model (α : Type) where
  n : ℕ
  m : ℕ
  k : ℕ
  normalization : Bool
  weights : List α

/-- Source ffm_save_model, modelled on the written values (the label tokens
carry no data and the file open failure path is outside the embedding). -/
def ffm_save_model {α : Type} [CommRing α] (model : ffm_model α) : saved_model α :=
  { n := model.n, m := model.m, k := model.k, normalization := model.normalization,
    weights := (List.range (model.n * model.m * model.k)).map model.W }

/-- Source ffm_load_model, lines 430 to 466: the header fields are read
back, a shrunk-shape buffer of n * m * k values is filled in the same
sequential order, and label tokens are consumed into a dummy.  Offsets
beyond the allocation are modelled as zero. -/
def ffm_load_model {α : Type} [CommRing α] (s : saved_model α) : ffm_model α :=
  { n := s.n, m := s.m, k := s.k, normalization := s.normalization,
    W := fun i => s.weights.getD i 0 }

/-- Term of the specification sum for one ordered pair, written from the
words of the spec: both nodes in bounds and of distinct fields contribute
2 * v1 * v2 * row_scale times the dot product over kdim coordinates of the
embeddings stored at (j1, f2) and (j2, f1), addressed at the given
stride. -/
def specTerm {α : Type} [CommRing α] (n m kdim align0 : ℕ) (W : ℕ → α) (r : α)
    (N1 N2 : ffm_node α) : α :=
  if N1.j < n ∧ N1.f < m ∧ N2.j < n ∧ N2.f < m ∧ N1.f ≠ N2.f then
    2 * N1.v * N2.v * r *
      dotRange W (N1.j * (m * align0) + N2.f * align0)
        (N2.j * (m * align0) + N1.f * align0) kdim
  else 0

/-- Specification-side score, written from the words of the spec: the sum
over all index pairs i strictly before jj of the pair term. -/
def scoreSpec {α : Type} [CommRing α] (n m kdim align0 : ℕ) (W : ℕ → α) (r : α)
    (nodes : List (ffm_node α)) : α :=
  ∑ i ∈ Finset.range nodes.length, ∑ jj ∈ Finset.Ico (i + 1) nodes.length,
    specTerm n m kdim align0 W r (nodes.getD i ⟨0, 0, 0⟩) (nodes.getD jj ⟨0, 0, 0⟩)

/-- Padding invariant: in a buffer of nm blocks at stride 2k, every
coordinate of a block from the requested width kReq up to the aligned
width k holds zero. -/
def padZeroW {α : Type} [CommRing α] (nm kReq k : ℕ) (W : ℕ → α) : Prop :=
  ∀ b, b < nm → ∀ d, kReq ≤ d → d < k → W (b * (2 * k) + d) = 0

/-- Row with every feature value multiplied by the constant c, the scaled
row of the normalization-scaling property. -/
def scaleRow (c : ℝ) (nodes : List (ffm_node ℝ)) : List (ffm_node ℝ) :=
  nodes.map (fun N => ⟨N.f, N.j, c * N.v⟩)

/-- Concrete two-node row used by the closed counterexamples: one node per
field, unit values, indices 0 and 1. -/
def exNodes2 : List (ffm_node ℝ) := [⟨0, 0, 1⟩, ⟨1, 1, 1⟩]

/-- The two-node row extended with an out-of-bounds node (field 5 with only
two fields) of unit value. -/
def exNodes3 : List (ffm_node ℝ) := [⟨0, 0, 1⟩, ⟨1, 1, 1⟩, ⟨5, 0, 1⟩]

/-- Concrete weight buffer: one at offsets 1 and 2, zero elsewhere.  In the
shrunk layout with n = 2, m = 2, k = 1 these are the blocks of (index 0,
field 1) and (index 1, field 0). -/
def exW : ℕ → ℝ := fun i => if i = 1 then 1 else if i = 2 then 1 else 0

/-- Concrete shrunk model with normalization on. -/
def exModel : ffm_model ℝ :=
  { n := 2, m := 2, k := 1, normalization := true, W := exW }

/-- Concrete model in the training layout (stride 2k) with every buffer
slot holding one, so accumulators carry their seed value. -/
def exTrainModel : ffm_model ℝ :=
  { n := 2, m := 2, k := 1, normalization := false, W := fun _ => 1 }

/-- Rational twin of the concrete training-layout model, for decidable
witness evaluation of the generic theorems. -/
def exTrainModelQ : ffm_model ℚ :=
  { n := 2, m := 2, k := 1, normalization := false, W := fun _ => 1 }

/-! ## Helper lemmas -/

/-- Sum of a mapped list as a sum over positions. -/
lemma list_map_sum_eq_range {α β : Type} [AddCommMonoid β] (g : α → β) (d0 : α) :
    ∀ l : List α, (l.map g).sum = ∑ i ∈ Finset.range l.length, g (l.getD i d0) := by
  intro l
  induction l with
  | nil => simp
  | cons x l ih =>
      rw [List.map_cons, List.sum_cons, List.length_cons, Finset.sum_range_succ']
      simp only [List.getD_cons_succ, List.getD_cons_zero]
      rw [ih, add_comm]

/-- Shifting an interval sum down by one. -/
lemma sum_Ico_shift {β : Type} [AddCommMonoid β] (f : ℕ → β) (a b : ℕ) :
    ∑ jj ∈ Finset.Ico (a + 1) (b + 1), f jj = ∑ jj ∈ Finset.Ico a b, f (jj + 1) := by
  rw [Finset.sum_Ico_eq_sum_range, Finset.sum_Ico_eq_sum_range]
  have hd : b + 1 - (a + 1) = b - a := by omega
  rw [hd]
  exact Finset.sum_congr rfl fun i _ => congrArg f (by omega)

/-- The score loop of wTx computes the specification sum over all ordered
pairs of positions. -/
lemma scoreLoop_eq_scoreSpec {α : Type} [CommRing α] (n m kdim align0 : ℕ)
    (W : ℕ → α) (r : α) :
    ∀ nodes : List (ffm_node α),
      scoreLoop n m kdim align0 W r nodes = scoreSpec n m kdim align0 W r nodes := by
  intro nodes
  induction nodes with
  | nil => simp [scoreLoop, scoreSpec]
  | cons N1 rest ih =>
      rw [scoreLoop, ih]
      unfold scoreSpec
      rw [List.length_cons, Finset.sum_range_succ']
      have hshift : ∀ i : ℕ,
          (∑ jj ∈ Finset.Ico (i + 1 + 1) (rest.length + 1),
            specTerm n m kdim align0 W r ((N1 :: rest).getD (i + 1) ⟨0, 0, 0⟩)
              ((N1 :: rest).getD jj ⟨0, 0, 0⟩))
          = ∑ jj ∈ Finset.Ico (i + 1) rest.length,
              specTerm n m kdim align0 W r (rest.getD i ⟨0, 0, 0⟩)
                (rest.getD jj ⟨0, 0, 0⟩) := by
        intro i
        rw [sum_Ico_shift]
        simp [List.getD_cons_succ]
      have hhead :
          (∑ jj ∈ Finset.Ico (0 + 1) (rest.length + 1),
            specTerm n m kdim align0 W r ((N1 :: rest).getD 0 ⟨0, 0, 0⟩)
              ((N1 :: rest).getD jj ⟨0, 0, 0⟩))
          = ∑ jj ∈ Finset.range rest.length,
              specTerm n m kdim align0 W r N1 (rest.getD jj ⟨0, 0, 0⟩) := by
        rw [sum_Ico_shift]
        rw [Finset.range_eq_Ico]
        simp [List.getD_cons_succ, List.getD_cons_zero]
      rw [Finset.sum_congr rfl fun i _ => hshift i, hhead]
      have hif :
          (if N1.j < n ∧ N1.f < m then ((rest.map (innerTerm n m kdim align0 W r N1)).sum)
           else 0)
          = ∑ jj ∈ Finset.range rest.length,
              specTerm n m kdim align0 W r N1 (rest.getD jj ⟨0, 0, 0⟩) := by
        by_cases hb : N1.j < n ∧ N1.f < m
        · rw [if_pos hb, list_map_sum_eq_range (innerTerm n m kdim align0 W r N1) ⟨0, 0, 0⟩]
          refine Finset.sum_congr rfl fun jj _ => ?_
          unfold innerTerm specTerm
          by_cases hx : (rest.getD jj ⟨0, 0, 0⟩).j < n ∧ (rest.getD jj ⟨0, 0, 0⟩).f < m ∧
              N1.f ≠ (rest.getD jj ⟨0, 0, 0⟩).f
          · rw [if_pos hx, if_pos ⟨hb.1, hb.2, hx.1, hx.2.1, hx.2.2⟩]
            ring
          · rw [if_neg hx, if_neg]
            intro hc
            exact hx ⟨hc.2.2.1, hc.2.2.2.1, hc.2.2.2.2⟩
        · rw [if_neg hb]
          symm
          refine Finset.sum_eq_zero fun jj _ => ?_
          unfold specTerm
          rw [if_neg]
          intro hc
          exact hb ⟨hc.1, hc.2.1⟩
      rw [hif, add_comm]

/-! ## Claim theorems -/

/-- C2: in score mode the interaction kernel returns the sum, over all
pairs of row positions with the first strictly before the second, both
nodes in bounds and of distinct fields, of 2 * v1 * v2 * row_scale times
the dot product over the k embedding coordinates of the embeddings stored
at (j1, f2) and (j2, f1), in the unshrunk layout at stride 2k. -/
theorem C2_score_mode_spec {α : Type} [CommRing α] (nodes : List (ffm_node α))
    (r : α) (model : ffm_model α) (kappa eta lambda : α) (rs : α → α) :
    (wTx nodes r model kappa eta lambda rs false).1
      = scoreSpec model.n model.m model.k (2 * model.k) model.W r nodes := by
  rw [wTx]
  simp only [Bool.false_eq_true, if_false]
  exact scoreLoop_eq_scoreSpec model.n model.m model.k (2 * model.k) model.W r nodes

/-- C10 (amended to the true computation is already the claim): two
parameter records that agree on every field except random drive train to
the identical model, for the same draws, rows and reciprocal square root
routine; the random field is never read. -/
theorem C10_random_unused (n m : ℕ) (rows : List (List (ffm_node ℝ) × ℤ))
    (p1 p2 : ffm_parameter) (rs : ℝ → ℝ) (rand : ℕ → ℝ)
    (he : p1.eta = p2.eta) (hl : p1.lambda = p2.lambda)
    (hi : p1.nr_iters = p2.nr_iters) (hk : p1.k = p2.k)
    (ht : p1.nr_threads = p2.nr_threads) (hq : p1.quiet = p2.quiet)
    (hn : p1.normalization = p2.normalization) :
    train n m rows p1 rs rand = train n m rows p2 rs rand := by
  obtain ⟨e1, l1, i1, k1, t1, q1, no1, r1⟩ := p1
  obtain ⟨e2, l2, i2, k2, t2, q2, no2, r2⟩ := p2
  simp only at he hl hi hk ht hq hn
  subst he hl hi hk ht hq hn
  rfl

/-- Witness for C10 at the default parameters versus the same with random
cleared. -/
theorem C10_random_unused_witness :
    train 2 2 [] ffm_get_default_param id (fun _ => 0)
      = train 2 2 [] { ffm_get_default_param with random := false } id (fun _ => 0) :=
  C10_random_unused 2 2 [] ffm_get_default_param
    { ffm_get_default_param with random := false } id (fun _ => 0)
    rfl rfl rfl rfl rfl rfl rfl

/-- C1 amended: the training loop passes the constant scale one to every
score-mode call, every update-mode call and every validation scoring call,
whatever the normalization parameter says; consequently the per-row
training step and the validation loss are independent of the normalization
flag of the parameters. -/
theorem C1_row_scale_always_one (param : ffm_parameter) (b : Bool) (rs : ℝ → ℝ)
    (model : ffm_model ℝ) (row : List (ffm_node ℝ) × ℤ)
    (nodes : List (ffm_node ℝ)) :
    train_row_scale param nodes = 1 ∧
    train_step param rs model row
      = train_step { param with normalization := b } rs model row ∧
    validation_row_loss param rs model row
      = validation_row_loss { param with normalization := b } rs model row :=
  ⟨rfl, rfl, rfl⟩

/-- C1 counterexample: with normalization set and a row of two unit-valued
nodes, the claimed scale is the reciprocal square root of two, but the
scale the training loop passes is one. -/
theorem C1_counterexample :
    ¬ (train_row_scale { ffm_get_default_param with normalization := true } exNodes2
        = (if ({ ffm_get_default_param with normalization := true } : ffm_parameter).normalization
           then 1 / Real.sqrt (sumSq exNodes2) else 1)) := by
  intro h
  have hs : sumSq exNodes2 = (2 : ℝ) := by
    simp [sumSq, exNodes2]
    norm_num
  rw [train_row_scale, if_pos rfl, hs] at h
  have h2 : (1 : ℝ) < Real.sqrt 2 := by
    have hlt : Real.sqrt 1 < Real.sqrt 2 := Real.sqrt_lt_sqrt (by norm_num) (by norm_num)
    rwa [Real.sqrt_one] at hlt
  have hfrac : (1 : ℝ) / Real.sqrt 2 < 1 := by
    rw [div_lt_one (by linarith)]
    exact h2
  rw [← h] at hfrac
  exact lt_irrefl 1 hfrac

/-- Two blocks addressed by a valid cross-field pair have distinct block
indices: j1 * m + f2 and j2 * m + f1 differ whenever f1 and f2 are
distinct fields below m. -/
lemma block_offset_ne (m f1 f2 j1 j2 : ℕ) (hf1 : f1 < m) (hf2 : f2 < m)
    (hne : f1 ≠ f2) : j1 * m + f2 ≠ j2 * m + f1 := by
  rcases Nat.lt_trichotomy j1 j2 with hlt | heq | hgt
  · intro h
    have hstep : j1 * m + f2 < j2 * m + f1 := by
      calc j1 * m + f2 < j1 * m + m := by omega
      _ = (j1 + 1) * m := by ring
      _ ≤ j2 * m := Nat.mul_le_mul_right _ hlt
      _ ≤ j2 * m + f1 := Nat.le_add_right _ _
    omega
  · subst heq
    intro h
    exact hne (Nat.add_left_cancel h).symm
  · intro h
    have hstep : j2 * m + f1 < j1 * m + f2 := by
      calc j2 * m + f1 < j2 * m + m := by omega
      _ = (j2 + 1) * m := by ring
      _ ≤ j1 * m := Nat.mul_le_mul_right _ hgt
      _ ≤ j1 * m + f2 := Nat.le_add_right _ _
    omega

/-- The two weight ranges touched by a valid cross-field pair are disjoint:
one block of width 2k ends before the other begins. -/
lemma blocks_disjoint (m k f1 f2 j1 j2 : ℕ) (hf1 : f1 < m) (hf2 : f2 < m)
    (hne : f1 ≠ f2) :
    (j1 * (m * (2 * k)) + f2 * (2 * k)) + 2 * k ≤ j2 * (m * (2 * k)) + f1 * (2 * k)
    ∨ (j2 * (m * (2 * k)) + f1 * (2 * k)) + 2 * k ≤ j1 * (m * (2 * k)) + f2 * (2 * k) := by
  have e1 : j1 * (m * (2 * k)) + f2 * (2 * k) = (j1 * m + f2) * (2 * k) := by ring
  have e2 : j2 * (m * (2 * k)) + f1 * (2 * k) = (j2 * m + f1) * (2 * k) := by ring
  rw [e1, e2]
  have hbne := block_offset_ne m f1 f2 j1 j2 hf1 hf2 hne
  rcases Nat.lt_or_ge (j1 * m + f2) (j2 * m + f1) with hlt | hge
  · left
    calc (j1 * m + f2) * (2 * k) + 2 * k = (j1 * m + f2 + 1) * (2 * k) := by ring
    _ ≤ (j2 * m + f1) * (2 * k) := Nat.mul_le_mul_right _ hlt
  · right
    have hlt : j2 * m + f1 < j1 * m + f2 := lt_of_le_of_ne hge (Ne.symm hbne)
    calc (j2 * m + f1) * (2 * k) + 2 * k = (j2 * m + f1 + 1) * (2 * k) := by ring
    _ ≤ (j1 * m + f2) * (2 * k) := Nat.mul_le_mul_right _ hlt

/-- C3: on a row made of one valid cross-field pair, the update-mode kernel
returns 0 (as it does on every row, first conjunct), and for every live
coordinate d the squared gradients g1 and g2, with v = 2 * v1 * v2 *
row_scale and kv = kappa * v, are first accumulated into the
squared-gradient slots, and each weight then moves by eta * g over the
square root of the already incremented accumulator, never the pre-update
one.  The reciprocal square root of the hardware is interpreted exactly. -/
theorem C3_update_mode (model : ffm_model ℝ) (r kappa eta lambda : ℝ)
    (N1 N2 : ffm_node ℝ) (d : ℕ) (anyNodes : List (ffm_node ℝ))
    (anyModel : ffm_model ℝ) (anyR : ℝ) (rs : ℝ → ℝ)
    (h1j : N1.j < model.n) (h1f : N1.f < model.m)
    (h2j : N2.j < model.n) (h2f : N2.f < model.m)
    (hff : N1.f ≠ N2.f) (hd : d < model.k) :
    (wTx anyNodes anyR anyModel kappa eta lambda rs true).1 = 0 ∧
    (wTx [N1, N2] r model kappa eta lambda (fun x => (Real.sqrt x)⁻¹) true).2.W
        (N1.j * (model.m * (2 * model.k)) + N2.f * (2 * model.k) + model.k + d)
      = model.W (N1.j * (model.m * (2 * model.k)) + N2.f * (2 * model.k) + model.k + d)
        + (lambda * model.W (N1.j * (model.m * (2 * model.k)) + N2.f * (2 * model.k) + d)
           + kappa * (2 * N1.v * N2.v * r)
             * model.W (N2.j * (model.m * (2 * model.k)) + N1.f * (2 * model.k) + d))
          * (lambda * model.W (N1.j * (model.m * (2 * model.k)) + N2.f * (2 * model.k) + d)
             + kappa * (2 * N1.v * N2.v * r)
               * model.W (N2.j * (model.m * (2 * model.k)) + N1.f * (2 * model.k) + d)) ∧
    (wTx [N1, N2] r model kappa eta lambda (fun x => (Real.sqrt x)⁻¹) true).2.W
        (N2.j * (model.m * (2 * model.k)) + N1.f * (2 * model.k) + model.k + d)
      = model.W (N2.j * (model.m * (2 * model.k)) + N1.f * (2 * model.k) + model.k + d)
        + (lambda * model.W (N2.j * (model.m * (2 * model.k)) + N1.f * (2 * model.k) + d)
           + kappa * (2 * N1.v * N2.v * r)
             * model.W (N1.j * (model.m * (2 * model.k)) + N2.f * (2 * model.k) + d))
          * (lambda * model.W (N2.j * (model.m * (2 * model.k)) + N1.f * (2 * model.k) + d)
             + kappa * (2 * N1.v * N2.v * r)
               * model.W (N1.j * (model.m * (2 * model.k)) + N2.f * (2 * model.k) + d)) ∧
    (wTx [N1, N2] r model kappa eta lambda (fun x => (Real.sqrt x)⁻¹) true).2.W
        (N1.j * (model.m * (2 * model.k)) + N2.f * (2 * model.k) + d)
      = model.W (N1.j * (model.m * (2 * model.k)) + N2.f * (2 * model.k) + d)
        - eta * (lambda * model.W (N1.j * (model.m * (2 * model.k)) + N2.f * (2 * model.k) + d)
                 + kappa * (2 * N1.v * N2.v * r)
                   * model.W (N2.j * (model.m * (2 * model.k)) + N1.f * (2 * model.k) + d))
            / Real.sqrt
                (model.W (N1.j * (model.m * (2 * model.k)) + N2.f * (2 * model.k) + model.k + d)
                 + (lambda * model.W (N1.j * (model.m * (2 * model.k)) + N2.f * (2 * model.k) + d)
                    + kappa * (2 * N1.v * N2.v * r)
                      * model.W (N2.j * (model.m * (2 * model.k)) + N1.f * (2 * model.k) + d))
                   * (lambda * model.W (N1.j * (model.m * (2 * model.k)) + N2.f * (2 * model.k) + d)
                      + kappa * (2 * N1.v * N2.v * r)
                        * model.W (N2.j * (model.m * (2 * model.k)) + N1.f * (2 * model.k) + d))) ∧
    (wTx [N1, N2] r model kappa eta lambda (fun x => (Real.sqrt x)⁻¹) true).2.W
        (N2.j * (model.m * (2 * model.k)) + N1.f * (2 * model.k) + d)
      = model.W (N2.j * (model.m * (2 * model.k)) + N1.f * (2 * model.k) + d)
        - eta * (lambda * model.W (N2.j * (model.m * (2 * model.k)) + N1.f * (2 * model.k) + d)
                 + kappa * (2 * N1.v * N2.v * r)
                   * model.W (N1.j * (model.m * (2 * model.k)) + N2.f * (2 * model.k) + d))
            / Real.sqrt
                (model.W (N2.j * (model.m * (2 * model.k)) + N1.f * (2 * model.k) + model.k + d)
                 + (lambda * model.W (N2.j * (model.m * (2 * model.k)) + N1.f * (2 * model.k) + d)
                    + kappa * (2 * N1.v * N2.v * r)
                      * model.W (N1.j * (model.m * (2 * model.k)) + N2.f * (2 * model.k) + d))
                   * (lambda * model.W (N2.j * (model.m * (2 * model.k)) + N1.f * (2 * model.k) + d)
                      + kappa * (2 * N1.v * N2.v * r)
                        * model.W (N1.j * (model.m * (2 * model.k)) + N2.f * (2 * model.k) + d))) := by
  have hdisj := blocks_disjoint model.m model.k N1.f N2.f N1.j N2.j h1f h2f hff
  refine ⟨rfl, ?_⟩
  have hW : (wTx [N1, N2] r model kappa eta lambda (fun x => (Real.sqrt x)⁻¹) true).2.W
      = updatePairW model.m model.k r kappa eta lambda (fun x => (Real.sqrt x)⁻¹)
          N1 N2 model.W := by
    show updateLoop model.n model.m model.k r kappa eta lambda _ [N1, N2] model.W = _
    rw [updateLoop, if_pos ⟨h1j, h1f⟩, updateLoop, if_pos ⟨h2j, h2f⟩, updateLoop,
      updateInner, updateInner]
    simp only [List.foldl_cons, List.foldl_nil]
    rw [if_pos ⟨h2j, h2f, hff⟩]
  rw [hW]
  simp only [updatePairW]
  set o1 := N1.j * (model.m * (2 * model.k)) + N2.f * (2 * model.k) with ho1
  set o2 := N2.j * (model.m * (2 * model.k)) + N1.f * (2 * model.k) with ho2
  set k := model.k with hk
  refine ⟨?_, ?_, ?_, ?_⟩
  · rw [if_neg (by omega), if_pos (by omega)]
    have : o1 + k + d - (o1 + k) = d := by omega
    rw [this]
  · rw [if_neg (by omega), if_neg (by omega), if_neg (by omega), if_pos (by omega)]
    have : o2 + k + d - (o2 + k) = d := by omega
    rw [this]
  · rw [if_pos (by omega)]
    have : o1 + d - o1 = d := by omega
    rw [this]
    ring
  · rw [if_neg (by omega), if_neg (by omega), if_pos (by omega)]
    have : o2 + d - o2 = d := by omega
    rw [this]
    ring

/-- Witness for C3: for a two-node cross-field row over the all-ones
buffer, the accumulator slot of block (index 0, field 1), flat offset 3 in
the training layout, receives exactly its old value plus the squared
gradient. -/
theorem C3_update_mode_witness :
    (wTx [(⟨0, 0, 1⟩ : ffm_node ℝ), ⟨1, 1, 1⟩] 1 exTrainModel 1 1 0
        (fun x => (Real.sqrt x)⁻¹) true).2.W 3
      = exTrainModel.W 3
        + (0 * exTrainModel.W 2 + 1 * (2 * 1 * 1 * 1) * exTrainModel.W 4)
          * (0 * exTrainModel.W 2 + 1 * (2 * 1 * 1 * 1) * exTrainModel.W 4) := by
  exact (C3_update_mode exTrainModel 1 1 1 0 ⟨0, 0, 1⟩ ⟨1, 1, 1⟩ 0 [] exTrainModel 0
      (fun x => (Real.sqrt x)⁻¹) (by decide) (by decide) (by decide) (by decide)
      (by decide) (by decide)).2.1

/-- A single valid pair update leaves every offset outside the two touched
blocks unchanged. -/
lemma updatePairW_frame {α : Type} [CommRing α] (m k : ℕ) (r kappa eta lambda : α)
    (rs : α → α) (N1 N2 : ffm_node α) (W : ℕ → α) (i : ℕ)
    (h1 : i < N1.j * (m * (2 * k)) + N2.f * (2 * k)
        ∨ N1.j * (m * (2 * k)) + N2.f * (2 * k) + 2 * k ≤ i)
    (h2 : i < N2.j * (m * (2 * k)) + N1.f * (2 * k)
        ∨ N2.j * (m * (2 * k)) + N1.f * (2 * k) + 2 * k ≤ i) :
    updatePairW m k r kappa eta lambda rs N1 N2 W i = W i := by
  simp only [updatePairW]
  set o1 := N1.j * (m * (2 * k)) + N2.f * (2 * k) with ho1
  set o2 := N2.j * (m * (2 * k)) + N1.f * (2 * k) with ho2
  rw [if_neg (by omega), if_neg (by omega), if_neg (by omega), if_neg (by omega)]

/-- The inner update loop leaves every offset outside the blocks of the
valid pairs it processes unchanged. -/
lemma updateInner_frame {α : Type} [CommRing α] (n m k : ℕ) (r kappa eta lambda : α)
    (rs : α → α) (N1 : ffm_node α) (i : ℕ) :
    ∀ (rest : List (ffm_node α)) (W : ℕ → α),
      (∀ N2 ∈ rest, N2.j < n → N2.f < m → N1.f ≠ N2.f →
        (i < N1.j * (m * (2 * k)) + N2.f * (2 * k)
          ∨ N1.j * (m * (2 * k)) + N2.f * (2 * k) + 2 * k ≤ i) ∧
        (i < N2.j * (m * (2 * k)) + N1.f * (2 * k)
          ∨ N2.j * (m * (2 * k)) + N1.f * (2 * k) + 2 * k ≤ i)) →
      updateInner n m k r kappa eta lambda rs N1 rest W i = W i := by
  intro rest
  induction rest with
  | nil => intro W h; rfl
  | cons N2 rest2 ih =>
      intro W h
      simp only [updateInner] at ih ⊢
      rw [List.foldl_cons]
      rw [ih _ (fun N2x hm => h N2x (List.mem_cons_of_mem _ hm))]
      by_cases hv : N2.j < n ∧ N2.f < m ∧ N1.f ≠ N2.f
      · rw [if_pos hv]
        obtain ⟨ha, hbb⟩ := h N2 (List.mem_cons_self _ _) hv.1 hv.2.1 hv.2.2
        exact updatePairW_frame m k r kappa eta lambda rs N1 N2 W i ha hbb
      · rw [if_neg hv]

/-- The outer update loop leaves every offset outside the blocks of all
valid pairs of the row unchanged. -/
lemma updateLoop_frame {α : Type} [CommRing α] (n m k : ℕ) (r kappa eta lambda : α)
    (rs : α → α) (i : ℕ) :
    ∀ (nodes : List (ffm_node α)) (W : ℕ → α),
      (∀ N1 ∈ nodes, ∀ N2 ∈ nodes, N1.j < n → N1.f < m → N2.j < n → N2.f < m →
        N1.f ≠ N2.f →
        (i < N1.j * (m * (2 * k)) + N2.f * (2 * k)
          ∨ N1.j * (m * (2 * k)) + N2.f * (2 * k) + 2 * k ≤ i)) →
      updateLoop n m k r kappa eta lambda rs nodes W i = W i := by
  intro nodes
  induction nodes with
  | nil => intro W h; rfl
  | cons N1 rest ih =>
      intro W h
      rw [updateLoop]
      rw [ih _ (fun Na ha Nb hb => h Na (List.mem_cons_of_mem _ ha)
        Nb (List.mem_cons_of_mem _ hb))]
      by_cases hb : N1.j < n ∧ N1.f < m
      · rw [if_pos hb]
        refine updateInner_frame n m k r kappa eta lambda rs N1 i rest W ?_
        intro N2 hm hj2 hf2 hff
        refine ⟨h N1 (List.mem_cons_self _ _) N2 (List.mem_cons_of_mem _ hm)
          hb.1 hb.2 hj2 hf2 hff, ?_⟩
        exact h N2 (List.mem_cons_of_mem _ hm) N1 (List.mem_cons_self _ _)
          hj2 hf2 hb.1 hb.2 (Ne.symm hff)
      · rw [if_neg hb]

/-- C9: an update-mode kernel call changes nothing outside the 2k-wide
blocks, live plus accumulator half, of the blocks (j1, f2) and (j2, f1)
addressed by the valid cross-field pairs of the row (the hypothesis ranges
over both orderings of the pair, which enumerates exactly those two blocks
per pair); the model bounds, width and flag are unchanged; and a
score-mode call returns the model untouched. -/
theorem C9_frame {α : Type} [CommRing α] (model : ffm_model α)
    (r kappa eta lambda : α) (rs : α → α) (nodes : List (ffm_node α)) (i : ℕ)
    (h : ∀ N1 ∈ nodes, ∀ N2 ∈ nodes, N1.j < model.n → N1.f < model.m →
      N2.j < model.n → N2.f < model.m → N1.f ≠ N2.f →
      (i < N1.j * (model.m * (2 * model.k)) + N2.f * (2 * model.k)
        ∨ N1.j * (model.m * (2 * model.k)) + N2.f * (2 * model.k) + 2 * model.k ≤ i)) :
    (wTx nodes r model kappa eta lambda rs true).2.W i = model.W i ∧
    (wTx nodes r model kappa eta lambda rs true).2.n = model.n ∧
    (wTx nodes r model kappa eta lambda rs true).2.m = model.m ∧
    (wTx nodes r model kappa eta lambda rs true).2.k = model.k ∧
    (wTx nodes r model kappa eta lambda rs true).2.normalization = model.normalization ∧
    (wTx nodes r model kappa eta lambda rs false).2 = model := by
  refine ⟨?_, rfl, rfl, rfl, rfl, rfl⟩
  exact updateLoop_frame model.n model.m model.k r kappa eta lambda rs i nodes model.W h

/-- Witness for C9 at the rational all-ones training model: offset 0 lies
outside the blocks touched by the one valid pair of the two-node row, and
is untouched. -/
theorem C9_frame_witness :
    (wTx [(⟨0, 0, 1⟩ : ffm_node ℚ), ⟨1, 1, 1⟩] 1 exTrainModelQ 1 1 0 id true).2.W 0
        = exTrainModelQ.W 0 ∧
    (wTx [(⟨0, 0, 1⟩ : ffm_node ℚ), ⟨1, 1, 1⟩] 1 exTrainModelQ 1 1 0 id true).2.n
        = exTrainModelQ.n ∧
    (wTx [(⟨0, 0, 1⟩ : ffm_node ℚ), ⟨1, 1, 1⟩] 1 exTrainModelQ 1 1 0 id true).2.m
        = exTrainModelQ.m ∧
    (wTx [(⟨0, 0, 1⟩ : ffm_node ℚ), ⟨1, 1, 1⟩] 1 exTrainModelQ 1 1 0 id true).2.k
        = exTrainModelQ.k ∧
    (wTx [(⟨0, 0, 1⟩ : ffm_node ℚ), ⟨1, 1, 1⟩] 1 exTrainModelQ 1 1 0 id
        true).2.normalization = exTrainModelQ.normalization ∧
    (wTx [(⟨0, 0, 1⟩ : ffm_node ℚ), ⟨1, 1, 1⟩] 1 exTrainModelQ 1 1 0 id false).2
        = exTrainModelQ := by
  exact C9_frame exTrainModelQ 1 1 1 0 id [⟨0, 0, 1⟩, ⟨1, 1, 1⟩] 0 (by decide)

/-- Forward element-wise overlapping copy: when the destination base does
not exceed the source base and the starting state agrees with W from the
destination base on, copying t elements reads only original data, so the
copied prefix holds the source values of W and everything outside the
written window is untouched. -/
lemma copyStep_fold_spec {α : Type} (src dst : ℕ) (hds : dst ≤ src) (V W : ℕ → α)
    (hV : ∀ i, dst ≤ i → V i = W i) :
    ∀ t, (∀ d, d < t → (List.range t).foldl (copyStep src dst) V (dst + d) = W (src + d)) ∧
      (∀ i, (i < dst ∨ dst + t ≤ i) → (List.range t).foldl (copyStep src dst) V i = V i) := by
  intro t
  induction t with
  | zero =>
      refine ⟨fun d hd => absurd hd (by omega), fun i _ => ?_⟩
      simp [List.range_zero]
  | succ t ih =>
      have hfold : (List.range (t + 1)).foldl (copyStep src dst) V
          = copyStep src dst ((List.range t).foldl (copyStep src dst) V) t := by
        rw [List.range_succ, List.foldl_append, List.foldl_cons, List.foldl_nil]
      have hread : (List.range t).foldl (copyStep src dst) V (src + t) = W (src + t) := by
        rw [ih.2 (src + t) (Or.inr (by omega))]
        exact hV (src + t) (by omega)
      constructor
      · intro d hd
        rw [hfold, copyStep]
        rcases Nat.lt_or_ge d t with hdt | hdt
        · rw [Function.update_noteq (fun hc => absurd (Nat.add_left_cancel hc) (by omega))]
          exact ih.1 d hdt
        · have hdeq : d = t := by omega
          subst hdeq
          rw [Function.update_same, hread]
      · intro i hi
        rw [hfold, copyStep]
        rw [Function.update_noteq (by omega)]
        exact ih.2 i (by omega)

/-- The per block copy of shrink_model, started from a state that agrees
with W from the destination base of block B on: the kNew copied slots take
the source values of W and all other offsets are untouched. -/
lemma copyBlock_spec {α : Type} (kOld kNew B : ℕ) (h : kNew ≤ 2 * kOld)
    (V W : ℕ → α) (hV : ∀ i, B * kNew ≤ i → V i = W i) :
    (∀ d, d < kNew → copyBlock kOld kNew B V (B * kNew + d) = W (B * (2 * kOld) + d)) ∧
    (∀ i, (i < B * kNew ∨ B * kNew + kNew ≤ i) → copyBlock kOld kNew B V i = V i) := by
  have hds : B * kNew ≤ B * (2 * kOld) := Nat.mul_le_mul_left B h
  have hmain := copyStep_fold_spec (B * (2 * kOld)) (B * kNew) hds V W hV kNew
  exact ⟨fun d hd => hmain.1 d hd, fun i hi => hmain.2 i hi⟩

/-- Folding the per block copy over the first B blocks in increasing order:
every copied slot of a processed block holds the source value from the
original state, and every offset at or beyond the compacted end of the
processed region is untouched. -/
lemma blockFold_spec {α : Type} (kOld kNew : ℕ) (h : kNew ≤ 2 * kOld) (W : ℕ → α) :
    ∀ B : ℕ,
      (∀ b, b < B → ∀ d, d < kNew →
        (List.range B).foldl (fun Wc b => copyBlock kOld kNew b Wc) W (b * kNew + d)
          = W (b * (2 * kOld) + d)) ∧
      (∀ i, B * kNew ≤ i →
        (List.range B).foldl (fun Wc b => copyBlock kOld kNew b Wc) W i = W i) := by
  intro B
  induction B with
  | zero =>
      refine ⟨fun b hb => absurd hb (by omega), fun i _ => ?_⟩
      simp [List.range_zero]
  | succ B ih =>
      have hfold : (List.range (B + 1)).foldl (fun Wc b => copyBlock kOld kNew b Wc) W
          = copyBlock kOld kNew B
              ((List.range B).foldl (fun Wc b => copyBlock kOld kNew b Wc) W) := by
        rw [List.range_succ, List.foldl_append, List.foldl_cons, List.foldl_nil]
      have hVW : ∀ i, B * kNew ≤ i →
          (List.range B).foldl (fun Wc b => copyBlock kOld kNew b Wc) W i = W i := ih.2
      have hcb := copyBlock_spec kOld kNew B h _ W hVW
      constructor
      · intro b hb d hd
        rw [hfold]
        rcases Nat.lt_or_ge b B with hbB | hbB
        · have hlow : b * kNew + d < B * kNew := by
            calc b * kNew + d < b * kNew + kNew := by omega
            _ = (b + 1) * kNew := (Nat.succ_mul b kNew).symm
            _ ≤ B * kNew := Nat.mul_le_mul_right kNew (by omega)
          rw [hcb.2 _ (Or.inl hlow)]
          exact ih.1 b hbB d hd
        · have hbeq : b = B := by omega
          subst hbeq
          exact hcb.1 d hd
      · intro i hi
        rw [hfold]
        have hge : B * kNew + kNew ≤ i := by
          calc B * kNew + kNew = (B + 1) * kNew := (Nat.succ_mul B kNew).symm
          _ ≤ i := hi
        rw [hcb.2 i (Or.inr hge)]
        exact ih.2 i (by omega)

/-- The row-major double loop of shrink_model equals the single fold over
block indices 0 up to n * m. -/
lemma shrinkW_eq_fold {α : Type} (m kOld kNew : ℕ) :
    ∀ (n : ℕ) (W : ℕ → α),
      shrinkW n m kOld kNew W
        = (List.range (n * m)).foldl (fun Wc b => copyBlock kOld kNew b Wc) W := by
  intro n
  induction n with
  | zero =>
      intro W
      simp [shrinkW, List.range_zero, Nat.zero_mul]
  | succ n ih =>
      intro W
      simp only [shrinkW] at ih ⊢
      rw [List.range_succ, List.foldl_append, List.foldl_cons, List.foldl_nil, ih]
      rw [show (n + 1) * m = n * m + m from by ring, List.range_add, List.foldl_append,
        List.foldl_map]

/-- A row-major block index is below the block count. -/
lemma block_idx_lt (n m j f : ℕ) (hj : j < n) (hf : f < m) : j * m + f < n * m := by
  calc j * m + f < j * m + m := by omega
  _ = (j + 1) * m := (Nat.succ_mul j m).symm
  _ ≤ n * m := Nat.mul_le_mul_right m hj

/-- C6: shrink_model keeps n, m and the normalization flag, records k as
the target width, and, for every block (index, field) taken in forward
row-major order, copies exactly the first kNew values from the source
offset (index * m + field) * k * 2 of the original buffer to the
destination offset (index * m + field) * kNew; offsets at or beyond the
compacted end are untouched, and every destination base is at most its
source base, which is why the forward scan never overwrites data it has
yet to copy. -/
theorem C6_shrink {α : Type} [CommRing α] (model : ffm_model α) (kNew : ℕ)
    (h : kNew ≤ 2 * model.k) :
    (shrink_model model kNew).n = model.n ∧
    (shrink_model model kNew).m = model.m ∧
    (shrink_model model kNew).k = kNew ∧
    (shrink_model model kNew).normalization = model.normalization ∧
    (∀ j, j < model.n → ∀ f, f < model.m → ∀ d, d < kNew →
      (shrink_model model kNew).W ((j * model.m + f) * kNew + d)
        = model.W ((j * model.m + f) * (model.k * 2) + d)) ∧
    (∀ i, model.n * model.m * kNew ≤ i → (shrink_model model kNew).W i = model.W i) ∧
    (∀ j f, (j * model.m + f) * kNew ≤ (j * model.m + f) * (model.k * 2)) := by
  have hmain := blockFold_spec model.k kNew h model.W (model.n * model.m)
  have hW : (shrink_model model kNew).W
      = (List.range (model.n * model.m)).foldl
          (fun Wc b => copyBlock model.k kNew b Wc) model.W := by
    show shrinkW model.n model.m model.k kNew model.W = _
    exact shrinkW_eq_fold model.m model.k kNew model.n model.W
  refine ⟨rfl, rfl, rfl, rfl, ?_, ?_, ?_⟩
  · intro j hj f hf d hd
    rw [hW, show (j * model.m + f) * (model.k * 2) = (j * model.m + f) * (2 * model.k)
      from by ring]
    exact hmain.1 (j * model.m + f) (block_idx_lt model.n model.m j f hj hf) d hd
  · intro i hi
    rw [hW]
    exact hmain.2 i hi
  · intro j f
    exact Nat.mul_le_mul_left (j * model.m + f) (by omega)

/-- Witness for C6 at the rational all-ones training model, shrunk to width
one. -/
theorem C6_shrink_witness :
    (shrink_model exTrainModelQ 1).n = exTrainModelQ.n ∧
    (shrink_model exTrainModelQ 1).m = exTrainModelQ.m ∧
    (shrink_model exTrainModelQ 1).k = 1 ∧
    (shrink_model exTrainModelQ 1).normalization = exTrainModelQ.normalization ∧
    (∀ j, j < exTrainModelQ.n → ∀ f, f < exTrainModelQ.m → ∀ d, d < 1 →
      (shrink_model exTrainModelQ 1).W ((j * exTrainModelQ.m + f) * 1 + d)
        = exTrainModelQ.W ((j * exTrainModelQ.m + f) * (exTrainModelQ.k * 2) + d)) ∧
    (∀ i, exTrainModelQ.n * exTrainModelQ.m * 1 ≤ i →
      (shrink_model exTrainModelQ 1).W i = exTrainModelQ.W i) ∧
    (∀ j f, (j * exTrainModelQ.m + f) * 1 ≤ (j * exTrainModelQ.m + f) * (exTrainModelQ.k * 2)) := by
  exact C6_shrink exTrainModelQ 1 (by decide)

/-- Loading the saved data restores every buffer entry below n * m * k. -/
lemma loaded_W_eq {α : Type} [CommRing α] (model : ffm_model α) (i : ℕ)
    (hi : i < model.n * model.m * model.k) :
    (ffm_load_model (ffm_save_model model)).W i = model.W i := by
  show ((List.range (model.n * model.m * model.k)).map model.W).getD i 0 = model.W i
  rw [List.getD_eq_getElem?_getD, List.getElem?_map, List.getElem?_range hi]
  rfl

/-- A flat offset addressed at stride k by an in-bounds block and
coordinate lies below n * m * k. -/
lemma flat_idx_lt (n m k j f d : ℕ) (hj : j < n) (hf : f < m) (hd : d < k) :
    j * (m * k) + f * k + d < n * m * k := by
  have h1 : (f + 1) * k ≤ m * k := Nat.mul_le_mul_right k hf
  calc j * (m * k) + f * k + d < j * (m * k) + f * k + k := by omega
  _ = j * (m * k) + (f + 1) * k := by ring
  _ ≤ j * (m * k) + m * k := by omega
  _ = (j + 1) * (m * k) := by ring
  _ ≤ n * (m * k) := Nat.mul_le_mul_right (m * k) hj
  _ = n * m * k := by ring

/-- The score loop only reads buffer offsets reachable from in-bounds
blocks, so two buffers agreeing there give equal scores. -/
lemma scoreLoop_congr_W {α : Type} [CommRing α] (n m kdim align0 L : ℕ)
    (W1 W2 : ℕ → α) (r : α)
    (hL : ∀ j f dd, j < n → f < m → dd < kdim → j * (m * align0) + f * align0 + dd < L)
    (hW : ∀ i, i < L → W1 i = W2 i) :
    ∀ nodes : List (ffm_node α),
      scoreLoop n m kdim align0 W1 r nodes = scoreLoop n m kdim align0 W2 r nodes := by
  intro nodes
  induction nodes with
  | nil => rfl
  | cons N1 rest ih =>
      rw [scoreLoop, scoreLoop, ih]
      by_cases hb : N1.j < n ∧ N1.f < m
      · rw [if_pos hb, if_pos hb]
        congr 1
        refine congrArg List.sum (List.map_congr_left fun N2 hm => ?_)
        unfold innerTerm
        by_cases hx : N2.j < n ∧ N2.f < m ∧ N1.f ≠ N2.f
        · rw [if_pos hx, if_pos hx]
          congr 1
          unfold dotRange
          refine Finset.sum_congr rfl fun dd hdd => ?_
          have hdd' : dd < kdim := Finset.mem_range.mp hdd
          rw [hW _ (hL N1.j N2.f dd hb.1 hx.2.1 hdd'),
            hW _ (hL N2.j N1.f dd hx.1 hb.2 hdd')]
        · rw [if_neg hx, if_neg hx]
      · rw [if_neg hb, if_neg hb]

/-- C7: saving a model and loading the result reconstructs n, m, k and the
normalization flag from the header, refills the buffer with the k floats
per (index, field) block in the row-major order they were written, and
yields a model on which predict returns, in exact arithmetic, the very
probability of the pre-save model on every fixed row. -/
theorem C7_save_load_roundtrip (model : ffm_model ℝ) (nodes : List (ffm_node ℝ)) :
    (ffm_load_model (ffm_save_model model)).n = model.n ∧
    (ffm_load_model (ffm_save_model model)).m = model.m ∧
    (ffm_load_model (ffm_save_model model)).k = model.k ∧
    (ffm_load_model (ffm_save_model model)).normalization = model.normalization ∧
    ffm_predict nodes (ffm_load_model (ffm_save_model model))
      = ffm_predict nodes model := by
  refine ⟨rfl, rfl, rfl, rfl, ?_⟩
  have hsc : predictScore (ffm_load_model (ffm_save_model model)) nodes
      = predictScore model nodes := by
    show scoreLoop model.n model.m model.k model.k
        (ffm_load_model (ffm_save_model model)).W
        (predictScale (ffm_load_model (ffm_save_model model)) nodes) nodes
      = scoreLoop model.n model.m model.k model.k model.W (predictScale model nodes) nodes
    have hscale : predictScale (ffm_load_model (ffm_save_model model)) nodes
        = predictScale model nodes := rfl
    rw [hscale]
    refine scoreLoop_congr_W model.n model.m model.k model.k
      (model.n * model.m * model.k) _ model.W (predictScale model nodes)
      (fun j f dd hj hf hdd => flat_idx_lt model.n model.m model.k j f dd hj hf hdd)
      (fun i hi => loaded_W_eq model i hi) nodes
  rw [ffm_predict, ffm_predict, hsc]

/-- The aligned width is at least the requested width. -/
lemma align_k_ge (kk : ℕ) : kk ≤ align_k kk := by
  unfold align_k
  omega

/-- Two distinct block indices are separated by at least one full stride. -/
lemma stride_gap (x y k : ℕ) (hne : x ≠ y) :
    x * (2 * k) + 2 * k ≤ y * (2 * k) ∨ y * (2 * k) + 2 * k ≤ x * (2 * k) := by
  rcases Nat.lt_or_ge x y with h | h
  · left
    calc x * (2 * k) + 2 * k = (x + 1) * (2 * k) := by ring
    _ ≤ y * (2 * k) := Nat.mul_le_mul_right (2 * k) h
  · right
    have hlt : y < x := lt_of_le_of_ne h (Ne.symm hne)
    calc y * (2 * k) + 2 * k = (y + 1) * (2 * k) := by ring
    _ ≤ x * (2 * k) := Nat.mul_le_mul_right (2 * k) hlt

/-- One valid pair update keeps the padding coordinates of every block at
zero: padding weights read zero, so both gradients vanish there and the
moved weights stay zero, while the padding coordinates of untouched blocks
are not written at all. -/
lemma updatePairW_padZero {α : Type} [CommRing α] (n m k kReq : ℕ)
    (r kappa eta lambda : α) (rs : α → α) (N1 N2 : ffm_node α) (W : ℕ → α)
    (hj1 : N1.j < n) (hf1 : N1.f < m) (hj2 : N2.j < n) (hf2 : N2.f < m)
    (hff : N1.f ≠ N2.f) (hpz : padZeroW (n * m) kReq k W) :
    padZeroW (n * m) kReq k (updatePairW m k r kappa eta lambda rs N1 N2 W) := by
  intro b hb d hdr hdk
  simp only [updatePairW]
  have e1 : N1.j * (m * (2 * k)) + N2.f * (2 * k) = (N1.j * m + N2.f) * (2 * k) := by ring
  have e2 : N2.j * (m * (2 * k)) + N1.f * (2 * k) = (N2.j * m + N1.f) * (2 * k) := by ring
  rw [e1, e2]
  set b1 := N1.j * m + N2.f with hb1def
  set b2 := N2.j * m + N1.f with hb2def
  have hb1lt : b1 < n * m := block_idx_lt n m N1.j N2.f hj1 hf2
  have hb2lt : b2 < n * m := block_idx_lt n m N2.j N1.f hj2 hf1
  have hbne : b1 ≠ b2 := block_offset_ne m N1.f N2.f N1.j N2.j hf1 hf2 hff
  by_cases hcb1 : b = b1
  · rw [hcb1]
    rw [if_pos ⟨by omega, by omega⟩]
    have hsub : b1 * (2 * k) + d - b1 * (2 * k) = d := by omega
    rw [hsub, hpz b1 hb1lt d hdr hdk, hpz b2 hb2lt d hdr hdk]
    simp [mul_zero, add_zero, zero_mul, sub_zero]
  · by_cases hcb2 : b = b2
    · rw [hcb2]
      have hgap := stride_gap b2 b1 k (Ne.symm hbne)
      rw [if_neg (by omega), if_neg (by omega), if_pos ⟨by omega, by omega⟩]
      have hsub : b2 * (2 * k) + d - b2 * (2 * k) = d := by omega
      rw [hsub, hpz b2 hb2lt d hdr hdk, hpz b1 hb1lt d hdr hdk]
      simp [mul_zero, add_zero, zero_mul, sub_zero]
    · have hgap1 := stride_gap b b1 k hcb1
      have hgap2 := stride_gap b b2 k hcb2
      rw [if_neg (by omega), if_neg (by omega), if_neg (by omega), if_neg (by omega)]
      exact hpz b hb d hdr hdk

/-- The inner update loop preserves the padding invariant when its outer
node is in bounds. -/
lemma updateInner_padZero {α : Type} [CommRing α] (n m k kReq : ℕ)
    (r kappa eta lambda : α) (rs : α → α) (N1 : ffm_node α)
    (hj1 : N1.j < n) (hf1 : N1.f < m) :
    ∀ (rest : List (ffm_node α)) (W : ℕ → α),
      padZeroW (n * m) kReq k W →
      padZeroW (n * m) kReq k (updateInner n m k r kappa eta lambda rs N1 rest W) := by
  intro rest
  induction rest with
  | nil => intro W hpz; exact hpz
  | cons N2 rest2 ih =>
      intro W hpz
      simp only [updateInner] at ih ⊢
      rw [List.foldl_cons]
      refine ih _ ?_
      by_cases hv : N2.j < n ∧ N2.f < m ∧ N1.f ≠ N2.f
      · rw [if_pos hv]
        exact updatePairW_padZero n m k kReq r kappa eta lambda rs N1 N2 W
          hj1 hf1 hv.1 hv.2.1 hv.2.2 hpz
      · rw [if_neg hv]
        exact hpz

/-- The full update loop preserves the padding invariant. -/
lemma updateLoop_padZero {α : Type} [CommRing α] (n m k kReq : ℕ)
    (r kappa eta lambda : α) (rs : α → α) :
    ∀ (nodes : List (ffm_node α)) (W : ℕ → α),
      padZeroW (n * m) kReq k W →
      padZeroW (n * m) kReq k (updateLoop n m k r kappa eta lambda rs nodes W) := by
  intro nodes
  induction nodes with
  | nil => intro W hpz; exact hpz
  | cons N1 rest ih =>
      intro W hpz
      rw [updateLoop]
      refine ih _ ?_
      by_cases hb : N1.j < n ∧ N1.f < m
      · rw [if_pos hb]
        exact updateInner_padZero n m k kReq r kappa eta lambda rs N1 hb.1 hb.2 rest W hpz
      · rw [if_neg hb]
        exact hpz

/-- Under the padding invariant the dot product over the aligned width
equals the dot product over the requested width. -/
lemma dotRange_trunc {α : Type} [CommRing α] (k kReq : ℕ) (hk : kReq ≤ k)
    (nm : ℕ) (W : ℕ → α) (b1 b2 : ℕ) (hb1 : b1 < nm) (hb2 : b2 < nm)
    (hpz : padZeroW nm kReq k W) :
    dotRange W (b1 * (2 * k)) (b2 * (2 * k)) k
      = dotRange W (b1 * (2 * k)) (b2 * (2 * k)) kReq := by
  unfold dotRange
  rw [Finset.range_eq_Ico, ← Finset.sum_Ico_consecutive _ (Nat.zero_le kReq) hk]
  have hzero : ∑ dd ∈ Finset.Ico kReq k,
      W (b1 * (2 * k) + dd) * W (b2 * (2 * k) + dd) = 0 := by
    refine Finset.sum_eq_zero fun dd hdd => ?_
    have hdd' := Finset.mem_Ico.mp hdd
    rw [hpz b1 hb1 dd hdd'.1 hdd'.2, zero_mul]
  rw [hzero, add_zero]

/-- Under the padding invariant the score loop over the aligned width
equals the score loop over the requested width, at the aligned stride. -/
lemma scoreLoop_trunc {α : Type} [CommRing α] (n m k kReq : ℕ) (hk : kReq ≤ k)
    (W : ℕ → α) (r : α) (hpz : padZeroW (n * m) kReq k W) :
    ∀ nodes : List (ffm_node α),
      scoreLoop n m k (2 * k) W r nodes = scoreLoop n m kReq (2 * k) W r nodes := by
  intro nodes
  induction nodes with
  | nil => rfl
  | cons N1 rest ih =>
      rw [scoreLoop, scoreLoop, ih]
      by_cases hb : N1.j < n ∧ N1.f < m
      · rw [if_pos hb, if_pos hb]
        congr 1
        refine congrArg List.sum (List.map_congr_left fun N2 hm => ?_)
        unfold innerTerm
        by_cases hx : N2.j < n ∧ N2.f < m ∧ N1.f ≠ N2.f
        · rw [if_pos hx, if_pos hx]
          congr 1
          have e1 : N1.j * (m * (2 * k)) + N2.f * (2 * k)
              = (N1.j * m + N2.f) * (2 * k) := by ring
          have e2 : N2.j * (m * (2 * k)) + N1.f * (2 * k)
              = (N2.j * m + N1.f) * (2 * k) := by ring
          rw [e1, e2]
          exact dotRange_trunc k kReq hk (n * m) W _ _
            (block_idx_lt n m N1.j N2.f hb.1 hx.2.1)
            (block_idx_lt n m N2.j N1.f hx.1 hb.2) hpz
        · rw [if_neg hx, if_neg hx]
      · rw [if_neg hb, if_neg hb]

/-- C8: in a freshly allocated model the padding coordinates between the
requested and the aligned width hold zero; every update-mode kernel call
on a model of those dimensions preserves the zeros, for any scale, kappa,
eta, lambda and reciprocal square root routine; and under the invariant
every score-mode result equals the score computed over the requested
width only, so the padding coordinates contribute exactly zero. -/
theorem C8_padding (n m : ℕ) (param : ffm_parameter) (rand : ℕ → ℝ) :
    padZeroW (n * m) param.k (align_k param.k) (init_model n m param rand).W ∧
    (∀ (mdl : ffm_model ℝ) (nodes : List (ffm_node ℝ)) (r kappa eta lambda : ℝ)
        (rs : ℝ → ℝ), mdl.n = n → mdl.m = m → mdl.k = align_k param.k →
      padZeroW (n * m) param.k (align_k param.k) mdl.W →
      padZeroW (n * m) param.k (align_k param.k)
        ((wTx nodes r mdl kappa eta lambda rs true).2.W)) ∧
    (∀ (mdl : ffm_model ℝ) (nodes : List (ffm_node ℝ)) (r kappa eta lambda : ℝ)
        (rs : ℝ → ℝ), mdl.n = n → mdl.m = m → mdl.k = align_k param.k →
      padZeroW (n * m) param.k (align_k param.k) mdl.W →
      (wTx nodes r mdl kappa eta lambda rs false).1
        = scoreLoop n m param.k (2 * align_k param.k) mdl.W r nodes) := by
  refine ⟨?_, ?_, ?_⟩
  · intro b hb d hdr hdk
    show init_W n m param.k rand (b * (2 * align_k param.k) + d) = 0
    simp only [init_W]
    have h2k : 0 < 2 * align_k param.k := by omega
    have hdiv : (b * (2 * align_k param.k) + d) / (2 * align_k param.k) = b := by
      rw [Nat.mul_comm b (2 * align_k param.k), Nat.mul_add_div h2k,
        Nat.div_eq_of_lt (by omega), Nat.add_zero]
    have hmod : (b * (2 * align_k param.k) + d) % (2 * align_k param.k) = d := by
      rw [Nat.mul_comm b (2 * align_k param.k), Nat.mul_add_mod,
        Nat.mod_eq_of_lt (by omega)]
    rw [hdiv, hmod, if_pos hb, if_neg (by omega), if_pos hdk]
  · intro mdl nodes r kappa eta lambda rs hn hm hk hpz
    have hupd : (wTx nodes r mdl kappa eta lambda rs true).2.W
        = updateLoop mdl.n mdl.m mdl.k r kappa eta lambda rs nodes mdl.W := rfl
    rw [hupd, hn, hm, hk]
    exact updateLoop_padZero n m (align_k param.k) param.k r kappa eta lambda rs
      nodes mdl.W hpz
  · intro mdl nodes r kappa eta lambda rs hn hm hk hpz
    have hsc : (wTx nodes r mdl kappa eta lambda rs false).1
        = scoreLoop mdl.n mdl.m mdl.k (2 * mdl.k) mdl.W r nodes := rfl
    rw [hsc, hn, hm, hk]
    exact scoreLoop_trunc n m (align_k param.k) param.k (align_k_ge param.k) mdl.W r hpz nodes

/-- An out-of-bounds inner node contributes zero to the inner sum. -/
lemma innerTerm_oob {α : Type} [CommRing α] (n m kdim align0 : ℕ) (W : ℕ → α)
    (r : α) (N1 N : ffm_node α) (hN : n ≤ N.j ∨ m ≤ N.f) :
    innerTerm n m kdim align0 W r N1 N = 0 := by
  unfold innerTerm
  rw [if_neg]
  intro hc
  omega

/-- Removing an out-of-bounds node anywhere in the row does not change the
score loop. -/
lemma scoreLoop_skip_oob {α : Type} [CommRing α] (n m kdim align0 : ℕ) (W : ℕ → α)
    (r : α) (N : ffm_node α) (hN : n ≤ N.j ∨ m ≤ N.f) :
    ∀ l1 l2 : List (ffm_node α),
      scoreLoop n m kdim align0 W r (l1 ++ N :: l2)
        = scoreLoop n m kdim align0 W r (l1 ++ l2) := by
  intro l1
  induction l1 with
  | nil =>
      intro l2
      rw [List.nil_append, List.nil_append, scoreLoop]
      rw [if_neg (by omega), zero_add]
  | cons N1 l1' ih =>
      intro l2
      rw [List.cons_append, List.cons_append, scoreLoop, scoreLoop, ih]
      congr 1
      by_cases hb : N1.j < n ∧ N1.f < m
      · rw [if_pos hb, if_pos hb]
        rw [List.map_append, List.map_cons, List.sum_append, List.sum_cons,
          List.map_append, List.sum_append]
        rw [innerTerm_oob n m kdim align0 W r N1 N hN, zero_add]
      · rw [if_neg hb, if_neg hb]

/-- Removing an out-of-bounds node anywhere in the row does not change the
inner update loop. -/
lemma updateInner_skip_oob {α : Type} [CommRing α] (n m k : ℕ)
    (r kappa eta lambda : α) (rs : α → α) (N1 N : ffm_node α)
    (hN : n ≤ N.j ∨ m ≤ N.f) (l1 l2 : List (ffm_node α)) (W : ℕ → α) :
    updateInner n m k r kappa eta lambda rs N1 (l1 ++ N :: l2) W
      = updateInner n m k r kappa eta lambda rs N1 (l1 ++ l2) W := by
  simp only [updateInner]
  rw [List.foldl_append, List.foldl_append, List.foldl_cons]
  rw [if_neg (show ¬(N.j < n ∧ N.f < m ∧ N1.f ≠ N.f) from fun hc => by omega)]

/-- Removing an out-of-bounds node anywhere in the row does not change the
outer update loop. -/
lemma updateLoop_skip_oob {α : Type} [CommRing α] (n m k : ℕ)
    (r kappa eta lambda : α) (rs : α → α) (N : ffm_node α)
    (hN : n ≤ N.j ∨ m ≤ N.f) :
    ∀ (l1 l2 : List (ffm_node α)) (W : ℕ → α),
      updateLoop n m k r kappa eta lambda rs (l1 ++ N :: l2) W
        = updateLoop n m k r kappa eta lambda rs (l1 ++ l2) W := by
  intro l1
  induction l1 with
  | nil =>
      intro l2 W
      rw [List.nil_append, List.nil_append, updateLoop]
      rw [if_neg (by omega)]
  | cons N1 l1' ih =>
      intro l2 W
      rw [List.cons_append, List.cons_append, updateLoop, updateLoop, ih]
      by_cases hb : N1.j < n ∧ N1.f < m
      · rw [if_pos hb, if_pos hb]
        exact congrArg (updateLoop n m k r kappa eta lambda rs (l1' ++ l2))
          (updateInner_skip_oob n m k r kappa eta lambda rs N1 N hN l1' l2 W)
      · rw [if_neg hb, if_neg hb]

/-- C5 amended: nodes with an out-of-range index or field are skipped by
the pair loops, so they contribute exactly zero to the interaction sum of
the kernel in score mode (at any scale and stride, which also covers the
pair loop of predict), cause no state change in update mode, and
same-field pairs contribute zero and change nothing; with normalization
off, predict itself is unchanged by removing such a node.  With
normalization on, however, the value of an out-of-range node still enters
the row scale of predict, so the returned probability can change, which is
the corrected part of the claim. -/
theorem C5_skip_amended {α : Type} [CommRing α] (model : ffm_model α)
    (r kappa eta lambda : α) (rs : α → α) (N : ffm_node α)
    (l1 l2 : List (ffm_node α)) (kdim align0 : ℕ) (W0 : ℕ → α)
    (h : model.n ≤ N.j ∨ model.m ≤ N.f) :
    (wTx (l1 ++ N :: l2) r model kappa eta lambda rs false).1
        = (wTx (l1 ++ l2) r model kappa eta lambda rs false).1 ∧
    scoreLoop model.n model.m kdim align0 W0 r (l1 ++ N :: l2)
        = scoreLoop model.n model.m kdim align0 W0 r (l1 ++ l2) ∧
    (wTx (l1 ++ N :: l2) r model kappa eta lambda rs true).2
        = (wTx (l1 ++ l2) r model kappa eta lambda rs true).2 ∧
    (∀ N1 N2 : ffm_node α, N1.f = N2.f →
      innerTerm model.n model.m kdim align0 W0 r N1 N2 = 0 ∧
      (wTx [N1, N2] r model kappa eta lambda rs false).1 = 0 ∧
      (wTx [N1, N2] r model kappa eta lambda rs true).2 = model) ∧
    (∀ (mR : ffm_model ℝ) (NR : ffm_node ℝ) (p1 p2 : List (ffm_node ℝ)),
      mR.normalization = false → (mR.n ≤ NR.j ∨ mR.m ≤ NR.f) →
      ffm_predict (p1 ++ NR :: p2) mR = ffm_predict (p1 ++ p2) mR) := by
  refine ⟨?_, ?_, ?_, ?_, ?_⟩
  · exact scoreLoop_skip_oob model.n model.m model.k (2 * model.k) model.W r N h l1 l2
  · exact scoreLoop_skip_oob model.n model.m kdim align0 W0 r N h l1 l2
  · show (⟨model.n, model.m, model.k, model.normalization, _⟩ : ffm_model α) = ⟨_, _, _, _, _⟩
    congr 1
    exact updateLoop_skip_oob model.n model.m model.k r kappa eta lambda rs N h l1 l2 model.W
  · intro N1 N2 hsame
    have hterm0 : ∀ (kd a0 : ℕ) (Wx : ℕ → α),
        innerTerm model.n model.m kd a0 Wx r N1 N2 = 0 := by
      intro kd a0 Wx
      unfold innerTerm
      rw [if_neg]
      intro hc
      exact hc.2.2 hsame
    refine ⟨hterm0 kdim align0 W0, ?_, ?_⟩
    · show scoreLoop model.n model.m model.k (2 * model.k) model.W r [N1, N2] = 0
      rw [scoreLoop, scoreLoop, scoreLoop]
      simp [hterm0, ite_self]
    · show (⟨model.n, model.m, model.k, model.normalization, _⟩ : ffm_model α) = model
      have hupd : updateLoop model.n model.m model.k r kappa eta lambda rs [N1, N2] model.W
          = model.W := by
        rw [updateLoop, updateLoop, updateLoop]
        have hinner : ∀ W : ℕ → α,
            updateInner model.n model.m model.k r kappa eta lambda rs N1 [N2] W = W := by
          intro W
          simp only [updateInner]
          rw [List.foldl_cons, List.foldl_nil]
          rw [if_neg (fun hc => hc.2.2 hsame)]
        have hinner2 : ∀ W : ℕ → α,
            updateInner model.n model.m model.k r kappa eta lambda rs N2 [] W = W := by
          intro W
          rfl
        by_cases hb1 : N1.j < model.n ∧ N1.f < model.m
        · rw [if_pos hb1, hinner]
          by_cases hb2 : N2.j < model.n ∧ N2.f < model.m
          · rw [if_pos hb2, hinner2]
          · rw [if_neg hb2]
        · rw [if_neg hb1]
          by_cases hb2 : N2.j < model.n ∧ N2.f < model.m
          · rw [if_pos hb2, hinner2]
          · rw [if_neg hb2]
      rw [hupd]
  · intro mR NR p1 p2 hnorm hoob
    have hscale : ∀ nds : List (ffm_node ℝ), predictScale mR nds = 1 := by
      intro nds
      unfold predictScale
      rw [hnorm]
      simp
    show (1 : ℝ) / (1 + Real.exp (-(predictScore mR (p1 ++ NR :: p2))))
        = 1 / (1 + Real.exp (-(predictScore mR (p1 ++ p2))))
    have hsc : predictScore mR (p1 ++ NR :: p2) = predictScore mR (p1 ++ p2) := by
      unfold predictScore
      rw [hscale, hscale]
      exact scoreLoop_skip_oob mR.n mR.m mR.k mR.k mR.W 1 NR hoob p1 p2
    rw [hsc]

/-- The logistic link is injective. -/
lemma sigmoid_inj (a b : ℝ) (h : 1 / (1 + Real.exp (-a)) = 1 / (1 + Real.exp (-b))) :
    a = b := by
  have ha : (0 : ℝ) < 1 + Real.exp (-a) := by positivity
  have hb : (0 : ℝ) < 1 + Real.exp (-b) := by positivity
  rw [div_eq_div_iff ha.ne' hb.ne'] at h
  simp only [one_mul, mul_one] at h
  have hexp : Real.exp (-b) = Real.exp (-a) := by linarith
  have := Real.exp_eq_exp.mp hexp
  linarith

/-- Scaling a row scales its sum of squares by the square of the factor. -/
lemma sumSq_scaleRow (c : ℝ) (nodes : List (ffm_node ℝ)) :
    sumSq (scaleRow c nodes) = c ^ 2 * sumSq nodes := by
  induction nodes with
  | nil => simp [sumSq, scaleRow]
  | cons N rest ih =>
      simp only [sumSq, scaleRow, List.map_cons, List.sum_cons] at ih ⊢
      rw [ih]
      ring

/-- The score loop is homogeneous of degree one in the scale argument. -/
lemma scoreLoop_mul_r (n m kdim align0 : ℕ) (W : ℕ → ℝ) (r a : ℝ) :
    ∀ nodes : List (ffm_node ℝ),
      scoreLoop n m kdim align0 W (a * r) nodes
        = a * scoreLoop n m kdim align0 W r nodes := by
  intro nodes
  induction nodes with
  | nil => simp [scoreLoop]
  | cons N1 rest ih =>
      rw [scoreLoop, scoreLoop, ih]
      by_cases hb : N1.j < n ∧ N1.f < m
      · rw [if_pos hb, if_pos hb]
        have hterm : ∀ N2 : ffm_node ℝ,
            innerTerm n m kdim align0 W (a * r) N1 N2
              = a * innerTerm n m kdim align0 W r N1 N2 := by
          intro N2
          unfold innerTerm
          by_cases hx : N2.j < n ∧ N2.f < m ∧ N1.f ≠ N2.f
          · rw [if_pos hx, if_pos hx]; ring
          · rw [if_neg hx, if_neg hx]; ring
        rw [congrArg List.sum (List.map_congr_left fun N2 _ => hterm N2),
          List.sum_map_mul_left]
        ring
      · rw [if_neg hb, if_neg hb]
        ring

/-- The score loop picks up the square of the factor when every value of
the row is scaled. -/
lemma scoreLoop_scaleRow (n m kdim align0 : ℕ) (W : ℕ → ℝ) (r c : ℝ) :
    ∀ nodes : List (ffm_node ℝ),
      scoreLoop n m kdim align0 W r (scaleRow c nodes)
        = c ^ 2 * scoreLoop n m kdim align0 W r nodes := by
  intro nodes
  induction nodes with
  | nil => simp [scoreLoop, scaleRow]
  | cons N1 rest ih =>
      rw [show scaleRow c (N1 :: rest)
          = (⟨N1.f, N1.j, c * N1.v⟩ : ffm_node ℝ) :: scaleRow c rest from rfl]
      rw [scoreLoop, scoreLoop, ih]
      by_cases hb : N1.j < n ∧ N1.f < m
      · rw [if_pos hb, if_pos hb]
        have hmap : (scaleRow c rest).map
            (innerTerm n m kdim align0 W r ⟨N1.f, N1.j, c * N1.v⟩)
            = rest.map (fun N2 => c ^ 2 * innerTerm n m kdim align0 W r N1 N2) := by
          rw [scaleRow, List.map_map]
          refine List.map_congr_left fun N2 _ => ?_
          show innerTerm n m kdim align0 W r ⟨N1.f, N1.j, c * N1.v⟩ ⟨N2.f, N2.j, c * N2.v⟩
              = c ^ 2 * innerTerm n m kdim align0 W r N1 N2
          unfold innerTerm
          by_cases hx : N2.j < n ∧ N2.f < m ∧ N1.f ≠ N2.f
          · rw [if_pos hx, if_pos hx]; ring
          · rw [if_neg hx, if_neg hx]; ring
        rw [hmap, List.sum_map_mul_left]
        ring
      · rw [if_neg hb, if_neg hb]
        ring

/-- With normalization on and a row of positive squared norm, scaling the
row divides the recomputed row scale of predict by the factor. -/
lemma predictScale_scaleRow (model : ffm_model ℝ) (nodes : List (ffm_node ℝ))
    (c : ℝ) (hc : 0 < c) (hnorm : model.normalization = true) :
    predictScale model (scaleRow c nodes) = (1 / c) * predictScale model nodes := by
  unfold predictScale
  rw [hnorm]
  simp only [if_true]
  rw [sumSq_scaleRow, Real.sqrt_mul (sq_nonneg c), Real.sqrt_sq hc.le]
  rw [one_div, one_div, one_div, mul_inv]

/-- Score scaling law of predict: with normalization on the raw decision
value scales linearly in the factor, with it off quadratically. -/
lemma predictScore_scaleRow (model : ffm_model ℝ) (nodes : List (ffm_node ℝ))
    (c : ℝ) (hc : 0 < c) :
    (model.normalization = true →
      predictScore model (scaleRow c nodes) = c * predictScore model nodes) ∧
    (model.normalization = false →
      predictScore model (scaleRow c nodes) = c ^ 2 * predictScore model nodes) := by
  constructor
  · intro hnorm
    unfold predictScore
    rw [predictScale_scaleRow model nodes c hc hnorm, scoreLoop_mul_r,
      scoreLoop_scaleRow]
    field_simp
    ring
  · intro hnorm
    have hscale : ∀ nds : List (ffm_node ℝ), predictScale model nds = 1 := by
      intro nds
      unfold predictScale
      rw [hnorm]
      simp
    unfold predictScore
    rw [hscale, hscale, scoreLoop_scaleRow]

/-- C4 amended: for a positive factor c and a row of positive squared
norm, predict on the scaled row agrees with predict on the original row
exactly when c is one or the raw decision value is zero, in both
normalization settings; the underlying score scales by c with
normalization on (because the scale divides by the square root of the
squared norm, the claimed invariance fails) and by c squared with it
off. -/
theorem C4_normalization_scaling_amended (model : ffm_model ℝ)
    (nodes : List (ffm_node ℝ)) (c : ℝ) (hc : 0 < c) (hS : 0 < sumSq nodes) :
    (model.normalization = true →
      predictScore model (scaleRow c nodes) = c * predictScore model nodes ∧
      (ffm_predict (scaleRow c nodes) model = ffm_predict nodes model
        ↔ c = 1 ∨ predictScore model nodes = 0)) ∧
    (model.normalization = false →
      predictScore model (scaleRow c nodes) = c ^ 2 * predictScore model nodes ∧
      (ffm_predict (scaleRow c nodes) model = ffm_predict nodes model
        ↔ c = 1 ∨ predictScore model nodes = 0)) := by
  constructor
  · intro hnorm
    have hsc := (predictScore_scaleRow model nodes c hc).1 hnorm
    refine ⟨hsc, ?_⟩
    constructor
    · intro hp
      have heq := sigmoid_inj _ _ hp
      rw [hsc] at heq
      have hz : (c - 1) * predictScore model nodes = 0 := by ring_nf; linarith
      rcases mul_eq_zero.mp hz with h1 | h2
      · left; linarith
      · right; exact h2
    · intro hor
      unfold ffm_predict
      rcases hor with hc1 | ht0
      · rw [hsc, hc1, one_mul]
      · rw [hsc, ht0, mul_zero]
  · intro hnorm
    have hsc := (predictScore_scaleRow model nodes c hc).2 hnorm
    refine ⟨hsc, ?_⟩
    constructor
    · intro hp
      have heq := sigmoid_inj _ _ hp
      rw [hsc] at heq
      have hz : (c ^ 2 - 1) * predictScore model nodes = 0 := by ring_nf; linarith
      rcases mul_eq_zero.mp hz with h1 | h2
      · left
        have hfac : (c - 1) * (c + 1) = 0 := by ring_nf; linarith
        rcases mul_eq_zero.mp hfac with hm | hp2
        · linarith
        · linarith
      · right; exact h2
    · intro hor
      unfold ffm_predict
      rcases hor with hc1 | ht0
      · rw [hsc, hc1, one_pow, one_mul]
      · rw [hsc, ht0, mul_zero]

/-- Concrete raw decision value of predict on the two-node unit row. -/
lemma predictScore_exNodes2 : predictScore exModel exNodes2 = 2 * (1 / Real.sqrt 2) := by
  have hscale : predictScale exModel exNodes2 = 1 / Real.sqrt 2 := by
    unfold predictScale
    norm_num [sumSq, exNodes2, exModel]
  show scoreLoop exModel.n exModel.m exModel.k exModel.k exModel.W
      (predictScale exModel exNodes2) exNodes2 = 2 * (1 / Real.sqrt 2)
  rw [hscale]
  norm_num [scoreLoop, innerTerm, dotRange, exNodes2, exModel, exW,
    Finset.sum_range_one]

/-- Concrete raw decision value of predict on the row extended with the
out-of-bounds node: the pair sum is unchanged but the row scale now uses a
squared norm of three. -/
lemma predictScore_exNodes3 : predictScore exModel exNodes3 = 2 * (1 / Real.sqrt 3) := by
  have hscale : predictScale exModel exNodes3 = 1 / Real.sqrt 3 := by
    unfold predictScale
    norm_num [sumSq, exNodes3, exModel]
  show scoreLoop exModel.n exModel.m exModel.k exModel.k exModel.W
      (predictScale exModel exNodes3) exNodes3 = 2 * (1 / Real.sqrt 3)
  rw [hscale]
  norm_num [scoreLoop, innerTerm, dotRange, exNodes3, exModel, exW,
    Finset.sum_range_one]

/-- C5 counterexample: on the concrete normalized model, appending an
out-of-bounds node of unit value to the two-node row changes the returned
probability, because the node's value enters the normalization scale even
though the pair loop skips it. -/
theorem C5_counterexample : ffm_predict exNodes3 exModel ≠ ffm_predict exNodes2 exModel := by
  intro h
  have ht : predictScore exModel exNodes3 = predictScore exModel exNodes2 :=
    sigmoid_inj _ _ h
  rw [predictScore_exNodes3, predictScore_exNodes2] at ht
  have h2 : (0 : ℝ) < Real.sqrt 2 := Real.sqrt_pos.mpr (by norm_num)
  have h3 : (0 : ℝ) < Real.sqrt 3 := Real.sqrt_pos.mpr (by norm_num)
  have hlt : Real.sqrt 2 < Real.sqrt 3 := Real.sqrt_lt_sqrt (by norm_num) (by norm_num)
  have ht2 : 1 / Real.sqrt 3 = 1 / Real.sqrt 2 := by
    have := mul_left_cancel₀ (show (2 : ℝ) ≠ 0 from two_ne_zero) ht
    exact this
  rw [div_eq_div_iff h3.ne' h2.ne', one_mul, one_mul] at ht2
  linarith

/-- Witness for C5 at the rational all-ones training model, with the
out-of-bounds node sitting between two in-bounds nodes. -/
theorem C5_witness :
    (wTx ([(⟨0, 0, 1⟩ : ffm_node ℚ)] ++ (⟨5, 0, 1⟩ : ffm_node ℚ) :: [⟨1, 1, 1⟩]) 1
        exTrainModelQ 1 1 0 id false).1
      = (wTx ([(⟨0, 0, 1⟩ : ffm_node ℚ)] ++ [⟨1, 1, 1⟩]) 1 exTrainModelQ 1 1 0 id false).1 ∧
    scoreLoop exTrainModelQ.n exTrainModelQ.m 1 1 exTrainModelQ.W 1
        ([(⟨0, 0, 1⟩ : ffm_node ℚ)] ++ (⟨5, 0, 1⟩ : ffm_node ℚ) :: [⟨1, 1, 1⟩])
      = scoreLoop exTrainModelQ.n exTrainModelQ.m 1 1 exTrainModelQ.W 1
          ([(⟨0, 0, 1⟩ : ffm_node ℚ)] ++ [⟨1, 1, 1⟩]) ∧
    (wTx ([(⟨0, 0, 1⟩ : ffm_node ℚ)] ++ (⟨5, 0, 1⟩ : ffm_node ℚ) :: [⟨1, 1, 1⟩]) 1
        exTrainModelQ 1 1 0 id true).2
      = (wTx ([(⟨0, 0, 1⟩ : ffm_node ℚ)] ++ [⟨1, 1, 1⟩]) 1 exTrainModelQ 1 1 0 id true).2 ∧
    (∀ N1 N2 : ffm_node ℚ, N1.f = N2.f →
      innerTerm exTrainModelQ.n exTrainModelQ.m 1 1 exTrainModelQ.W 1 N1 N2 = 0 ∧
      (wTx [N1, N2] 1 exTrainModelQ 1 1 0 id false).1 = 0 ∧
      (wTx [N1, N2] 1 exTrainModelQ 1 1 0 id true).2 = exTrainModelQ) ∧
    (∀ (mR : ffm_model ℝ) (NR : ffm_node ℝ) (p1 p2 : List (ffm_node ℝ)),
      mR.normalization = false → (mR.n ≤ NR.j ∨ mR.m ≤ NR.f) →
      ffm_predict (p1 ++ NR :: p2) mR = ffm_predict (p1 ++ p2) mR) := by
  exact C5_skip_amended exTrainModelQ 1 1 1 0 id ⟨5, 0, 1⟩ [⟨0, 0, 1⟩] [⟨1, 1, 1⟩]
    1 1 exTrainModelQ.W (by decide)

/-- C4 counterexample: on the concrete normalized model, doubling every
value of the two-node row changes the returned probability even though
normalization is on. -/
theorem C4_counterexample :
    ffm_predict (scaleRow 2 exNodes2) exModel ≠ ffm_predict exNodes2 exModel := by
  intro h
  have heq := sigmoid_inj _ _ h
  have hsc := (predictScore_scaleRow exModel exNodes2 2 (by norm_num)).1 rfl
  rw [hsc] at heq
  have ht : predictScore exModel exNodes2 = 0 := by linarith
  rw [predictScore_exNodes2] at ht
  have h2 : (0 : ℝ) < Real.sqrt 2 := Real.sqrt_pos.mpr (by norm_num)
  have hpos : (0 : ℝ) < 1 / Real.sqrt 2 := by positivity
  linarith

/-- Witness for C4 at the concrete normalized model, factor two. -/
theorem C4_witness :
    (exModel.normalization = true →
      predictScore exModel (scaleRow 2 exNodes2) = 2 * predictScore exModel exNodes2 ∧
      (ffm_predict (scaleRow 2 exNodes2) exModel = ffm_predict exNodes2 exModel
        ↔ (2 : ℝ) = 1 ∨ predictScore exModel exNodes2 = 0)) ∧
    (exModel.normalization = false →
      predictScore exModel (scaleRow 2 exNodes2) = 2 ^ 2 * predictScore exModel exNodes2 ∧
      (ffm_predict (scaleRow 2 exNodes2) exModel = ffm_predict exNodes2 exModel
        ↔ (2 : ℝ) = 1 ∨ predictScore exModel exNodes2 = 0)) := by
  exact C4_normalization_scaling_amended exModel exNodes2 2 (by norm_num)
    (by norm_num [sumSq, exNodes2])
